import Mathlib

/-!
Verification development for the memory.python.org worker pipeline and its
tracking-service upload endpoint.

The definitions below are a shallow embedding of the Python sources:
  * `upload_results_to_server`, from
    worker/src/memory_tracker_worker/benchmarks/__init__.py
  * `process_commit`, `copy_repo_to_worktree`, `process_commits_in_parallel`
    and `process_commits_local_checkout`, from
    worker/src/memory_tracker_worker/processing.py
  * `benchmark_command`, from worker/src/memory_tracker_worker/commands.py
  * `upload_worker_run`, from backend/app/routers/upload.py

External effects (subprocess exits, filesystem state, HTTP responses) are
supplied by explicit environment records; the embedded functions reproduce
the control flow of the source on those outcomes and additionally report
the observable effects the claims talk about (directories created or
removed, validation calls, HTTP requests issued, isolation lifecycle
events).
-/

namespace MemTracker

/-- Commit identifier (a hexsha string). -/
abbrev Sha := String

/-! ## Result uploader: `upload_results_to_server`

The uploader reads `metadata.json` from the output directory; when the file
is missing it logs an error and returns (issuing no HTTP request).
Otherwise it POSTs once to `/api/upload-run` and classifies the response:
HTTP errors raise `ValueError ("Upload failed: " ++ detail)` where the
detail is taken from the JSON body when present, otherwise the response
text or the exception text; connection failures raise
`ValueError ("Connection failed: " ++ msg)`.  There is no retry loop. -/

/-- The outcome of the single `requests.post` call in
`upload_results_to_server`: a 2xx response, an HTTP error status (with the
structured JSON `detail` when the body carried one, and the raw response
text otherwise), or a transport-level failure raised by `requests`. -/
inductive UploadResponse
  | success
  | httpError (status : Nat) (jsonDetail : Option String) (text : String)
  | transportError (msg : String)
deriving DecidableEq, Repr

/-- External state seen by one call of `upload_results_to_server`: whether
`metadata.json` exists in the output directory, and what the server answers
if a POST is made. -/
structure UploadEnv where
  metadataExists : Bool
  response : UploadResponse
deriving DecidableEq, Repr

/-- What one call of `upload_results_to_server` did: `result` is `ok` when
the Python function returns normally and `error msg` when it raises
`ValueError msg`; `requests` counts the HTTP POSTs issued. -/
structure UploadOutcome where
  result : Except String Unit
  requests : Nat
deriving Repr

/-- Fallback error text used when the HTTP error body held no JSON detail:
the code takes `e.response.text or str(e)`. -/
def httpFallbackDetail (status : Nat) (text : String) : String :=
  if text = "" then "HTTP error " ++ toString status else text

/-- Shallow embedding of `upload_results_to_server`
(benchmarks/__init__.py, lines 227-313).  Missing `metadata.json` returns
without any request; every HTTP error (any status, 409 included) raises the
same `ValueError` with message `"Upload failed: " ++ detail`; a transport
failure raises `ValueError ("Connection failed: " ++ msg)`.  No branch of
the source distinguishes status 409 from other 4xx statuses, and no branch
retries the POST. -/
def upload_results_to_server (e : UploadEnv) : UploadOutcome :=
  if ¬ e.metadataExists then
    { result := .ok (), requests := 0 }
  else
    match e.response with
    | .success => { result := .ok (), requests := 1 }
    | .httpError status jsonDetail text =>
        let detail :=
          match jsonDetail with
          | some d => d
          | none => httpFallbackDetail status text
        { result := .error ("Upload failed: " ++ detail), requests := 1 }
    | .transportError msg =>
        { result := .error ("Connection failed: " ++ msg), requests := 1 }

/-! ## Per-commit state machine: `process_commit`

`process_commit` (processing.py, lines 189-417) checks out the commit,
handles a pre-existing per-commit output directory (fail unless `force`,
else remove it), creates the run directory and a temporary build
directory, then runs configure, make, make install, venv creation and pip
install, validates the binary and environment against the server, runs the
benchmarks and finally uploads.  Every failure is converted into an error
string returned to the caller; nothing escapes the function.  The `finally`
block removes the temporary build directory with `ignore_errors=True`.
The upload call is wrapped in its own `try/except Exception` that only
logs a warning, after which the function returns `None` (success). -/

/-- Exit status of one external subprocess invocation run with
`check=True`: either it exited 0 or it raised `CalledProcessError`
(carrying the command text used in the error message). -/
inductive ProcOutcome
  | ok
  | fail (msg : String)
deriving DecidableEq, Repr

/-- External world seen by one `process_commit` call: the git checkout,
the pre-existing state of the per-commit output directory, the outcome of
removing it under `--force`, the five toolchain subprocesses, the
binary/environment validation HTTP check, the benchmark run, and the
upload environment. -/
structure CommitEnv where
  checkoutOk : Bool
  runDirExists : Bool
  rmtreeOk : Bool
  configure : ProcOutcome
  make : ProcOutcome
  makeInstall : ProcOutcome
  venv : ProcOutcome
  pip : ProcOutcome
  validateOk : Bool
  benchmarks : ProcOutcome
  upload : UploadEnv
deriving DecidableEq, Repr

/-- Observable outcome of one `process_commit` call.  `error` is the
returned `Optional[str]`.  The remaining fields record the effects the
claims are about: whether a pre-existing run directory was removed,
whether a fresh run directory was created, whether the temporary build
directory was created and cleaned up by the `finally` block, whether
`validate_binary_and_environment` was called inside this function, whether
`upload_results_to_server` was called and how many HTTP requests it
issued, and whether the artifacts written under the run directory are
still on disk when the function returns (the source never deletes the run
directory after creating it). -/
structure CommitResult where
  error : Option String
  existingRemoved : Bool
  runDirCreated : Bool
  buildDirCreated : Bool
  buildDirCleaned : Bool
  validateCalled : Bool
  uploadCalled : Bool
  httpRequests : Nat
  artifactsRetained : Bool
deriving DecidableEq, Repr

/-- Result shape for the branches of `process_commit` that return before
the build directory is created (checkout failure and the run-directory
handling). -/
def earlyCommitResult (err : String) (removed : Bool) : CommitResult :=
  { error := some err
    existingRemoved := removed
    runDirCreated := false
    buildDirCreated := false
    buildDirCleaned := false
    validateCalled := false
    uploadCalled := false
    httpRequests := 0
    artifactsRetained := false }

/-- Result shape for the branches after the run directory and build
directory exist: the `finally` block always removes the build directory,
and the run directory (holding any artifacts produced) is never deleted. -/
def stageCommitResult (err : Option String) (removed validate uploadC : Bool)
    (reqs : Nat) : CommitResult :=
  { error := err
    existingRemoved := removed
    runDirCreated := true
    buildDirCreated := true
    buildDirCleaned := true
    validateCalled := validate
    uploadCalled := uploadC
    httpRequests := reqs
    artifactsRetained := true }

/-- Shallow embedding of `process_commit` (processing.py, lines 189-417).

Control flow of the source, in order: checkout (failure falls to the outer
`except Exception` giving an "Unexpected error" message); pre-existing run
directory returns the "already exists" error unless `force`, in which case
`shutil.rmtree` runs (its failure returns "Failed to remove existing
directory"); `run_dir.mkdir` and the temporary build directory; configure
(distinct "Error configuring commit" message); make, make install, venv,
pip, and the benchmark run all raise `CalledProcessError` into the same
"Error processing commit" handler; `validate_binary_and_environment`
failure returns "Validation failed for commit"; the upload call is wrapped
in `try/except Exception` that only logs, after which the function returns
`None`. -/
def process_commit (c : Sha) (force : Bool) (e : CommitEnv) : CommitResult :=
  if ¬ e.checkoutOk then
    earlyCommitResult ("Unexpected error processing commit " ++ c) false
  else if e.runDirExists ∧ ¬ force then
    earlyCommitResult
      ("Output directory for commit " ++ c ++
        " already exists") false
  else if e.runDirExists ∧ ¬ e.rmtreeOk then
    earlyCommitResult "Failed to remove existing directory" false
  else
    let removed := e.runDirExists && force
    match e.configure with
    | .fail msg =>
        stageCommitResult (some ("Error configuring commit " ++ c ++ ": " ++ msg))
          removed false false 0
    | .ok =>
    match e.make with
    | .fail msg =>
        stageCommitResult (some ("Error processing commit " ++ c ++ ": " ++ msg))
          removed false false 0
    | .ok =>
    match e.makeInstall with
    | .fail msg =>
        stageCommitResult (some ("Error processing commit " ++ c ++ ": " ++ msg))
          removed false false 0
    | .ok =>
    match e.venv with
    | .fail msg =>
        stageCommitResult (some ("Error processing commit " ++ c ++ ": " ++ msg))
          removed false false 0
    | .ok =>
    match e.pip with
    | .fail msg =>
        stageCommitResult (some ("Error processing commit " ++ c ++ ": " ++ msg))
          removed false false 0
    | .ok =>
    if ¬ e.validateOk then
      stageCommitResult (some ("Validation failed for commit " ++ c))
        removed true false 0
    else
    match e.benchmarks with
    | .fail msg =>
        stageCommitResult (some ("Error processing commit " ++ c ++ ": " ++ msg))
          removed true false 0
    | .ok =>
        -- Upload failures are caught, logged and ignored: the function
        -- returns None (success) whatever the upload outcome was.
        stageCommitResult none removed true true
          (upload_results_to_server e.upload).requests

/-! ## Batch scheduler: `copy_repo_to_worktree` and
`process_commits_in_parallel`

`process_commits_in_parallel` (processing.py, lines 433-506) slices the
commit list into consecutive batches of `batch_size`
(`commits[i:i + batch_size]`).  For each batch it first calls
`copy_repo_to_worktree` for every commit (a `tempfile.mkdtemp` temporary
root, then `git worktree add` of a linked working tree inside it), then
runs a `ThreadPoolExecutor` of size `min(max_workers, len(batch))` calling
`process_commit` per commit, collecting `(commit, error)` pairs in
`as_completed` (completion) order.  The `finally` block runs
`git worktree remove <path> --force` for every acquired worktree, each
attempt wrapped in `try/except` that only logs; nothing in the source
removes the `mkdtemp` temporary root directory.

Isolation lifecycle is recorded as an event trace: each acquisition emits
`mkTempRoot i` (the mkdtemp call) and `addWorktree i` (the worktree add),
and each teardown attempt emits `removeWorktree i ok` where `ok` says
whether the `git worktree remove` call succeeded.  `i` is the global
position of the commit in the input list. -/

/-- Isolation lifecycle events of the parallel scheduler. -/
inductive FsEvent
  | mkTempRoot (i : Nat)
  | addWorktree (i : Nat)
  | removeWorktree (i : Nat) (ok : Bool)
deriving DecidableEq, Repr

/-- Structural worker for `chunks`: `fuel` bounds the recursion depth
(the list length suffices), which keeps the definition computable by the
kernel. -/
def chunksAux (batchSize : Nat) : Nat → List α → List (List α)
  | _, [] => []
  | 0, _ :: _ => []
  | fuel + 1, x :: xs =>
      (x :: xs.take (batchSize - 1)) ::
        chunksAux batchSize fuel (xs.drop (batchSize - 1))

/-- `commits[i:i + batch_size]` slicing of the batch loop
(`for i in range(0, len(commits), batch_size)`): the first batch is the
first `batch_size` elements, the rest is the slicing of the remainder.
Defined for `batch_size ≥ 1`; `benchmark_command` rejects
`batch_size < 1` before this function runs (and Python `range` with step
0 raises). -/
def chunks (batchSize : Nat) (l : List α) : List (List α) :=
  chunksAux batchSize l.length l

theorem chunksAux_congr (batchSize : Nat) :
    ∀ (fuel : Nat) (l : List α), l.length ≤ fuel →
      chunksAux batchSize fuel l = chunks batchSize l := by
  intro fuel
  induction fuel using Nat.strong_induction_on with
  | _ fuel ih =>
      intro l hl
      cases l with
      | nil =>
          cases fuel with
          | zero => rfl
          | succ n => rfl
      | cons x xs =>
          cases fuel with
          | zero => simp at hl
          | succ n =>
              simp only [List.length_cons] at hl
              have h1 : (xs.drop (batchSize - 1)).length ≤ n := by
                simp only [List.length_drop]
                omega
              have h2 : (xs.drop (batchSize - 1)).length ≤ xs.length := by
                simp only [List.length_drop]
                omega
              show (x :: xs.take (batchSize - 1)) ::
                  chunksAux batchSize n (xs.drop (batchSize - 1)) =
                chunks batchSize (x :: xs)
              have hgoal : chunks batchSize (x :: xs) =
                  (x :: xs.take (batchSize - 1)) ::
                    chunksAux batchSize xs.length (xs.drop (batchSize - 1)) := rfl
              rw [hgoal, ih n (by omega) _ h1, ih xs.length (by omega) _ h2]

/-- Unfolding equation of `chunks` on a nonempty list. -/
theorem chunks_cons (batchSize : Nat) (x : α) (xs : List α) :
    chunks batchSize (x :: xs) =
      (x :: xs.take (batchSize - 1)) ::
        chunks batchSize (xs.drop (batchSize - 1)) := by
  rw [chunks, List.length_cons, chunksAux,
    chunksAux_congr batchSize xs.length _ (by simp [List.length_drop])]

/-- Result of the worktree-acquisition loop of one batch: the worktrees
actually acquired, the lifecycle events emitted, and the exception (if
any) that escaped `copy_repo_to_worktree`. -/
structure AcqResult where
  ws : List (Nat × Sha)
  trace : List FsEvent
  err : Option String
deriving Repr

/-- The per-batch acquisition loop (`for commit in batch:
worktree_path = copy_repo_to_worktree(...)`).  `acqFail i = some msg`
means the `git worktree add` for commit `i` raised after its `mkdtemp`
temporary root was already created; the loop stops there and the
exception propagates (the surrounding `finally` then tears down only the
worktrees acquired so far). -/
def acquireBatch (acqFail : Nat → Option String) : List (Nat × Sha) → AcqResult
  | [] => { ws := [], trace := [], err := none }
  | p :: rest =>
    match acqFail p.1 with
    | some msg => { ws := [], trace := [.mkTempRoot p.1], err := some msg }
    | none =>
        let r := acquireBatch acqFail rest
        { ws := p :: r.ws
          trace := .mkTempRoot p.1 :: .addWorktree p.1 :: r.trace
          err := r.err }

/-- The `finally` block of the batch: one `git worktree remove --force`
attempt per acquired worktree, each wrapped in `try/except Exception`
that only logs.  `rmFail i = true` models a teardown failure; the event
records whether the removal succeeded.  The temporary mkdtemp root is not
touched here, matching the source. -/
def relTrace (rmFail : Nat → Bool) (ws : List (Nat × Sha)) : List FsEvent :=
  ws.map (fun p => .removeWorktree p.1 (! rmFail p.1))

/-- Everything `process_commits_in_parallel` needs from the outside world:
the per-commit force flag and environments, the completion order of
`as_completed` (an arbitrary reordering of each batch result list), and
failure oracles for worktree acquisition, the pool itself, and worktree
removal. -/
structure BatchCfg where
  force : Bool
  env : Sha → CommitEnv
  reorder : List (Sha × Option String) → List (Sha × Option String)
  acqFail : Nat → Option String
  poolFail : Nat → Option String
  rmFail : Nat → Bool
  maxWorkers : Nat

/-- Observable outcome of `process_commits_in_parallel`: the returned
`all_results` list, the exception escaping the function (if any), the
isolation event trace, the list of worktrees whose removal was attempted
in the `finally` blocks, the number of
`validate_binary_and_environment` calls made inside `process_commit`,
and the thread-pool size used for each batch. -/
structure ParOutput where
  results : List (Sha × Option String)
  raised : Option String
  trace : List FsEvent
  attempted : List Nat
  validateCalls : Nat
  poolSizes : List Nat
deriving Repr

/-- The batch loop of `process_commits_in_parallel`.  Per batch: acquire
all worktrees up front; if acquisition raised, run the `finally` teardown
over the acquired prefix and let the exception escape.  Otherwise run the
pool (size `min(max_workers, len(batch))`); if the pool raised
(`poolFail`), the `finally` teardown still runs and the exception
escapes.  Otherwise collect one `(commit, error)` pair per commit in
completion order, tear the batch down, and continue with the next batch. -/
def runBatches (cfg : BatchCfg) : List (List (Nat × Sha)) → Nat → ParOutput
  | [], _ =>
      { results := [], raised := none, trace := [], attempted := []
        validateCalls := 0, poolSizes := [] }
  | b :: bl, k =>
    let acq := acquireBatch cfg.acqFail b
    match acq.err with
    | some msg =>
        { results := [], raised := some msg
          trace := acq.trace ++ relTrace cfg.rmFail acq.ws
          attempted := acq.ws.map Prod.fst
          validateCalls := 0, poolSizes := [] }
    | none =>
      match cfg.poolFail k with
      | some msg =>
          { results := [], raised := some msg
            trace := acq.trace ++ relTrace cfg.rmFail acq.ws
            attempted := acq.ws.map Prod.fst
            validateCalls := 0
            poolSizes := [min cfg.maxWorkers b.length] }
      | none =>
          let commitRes :=
            acq.ws.map (fun p => (p.2, process_commit p.2 cfg.force (cfg.env p.2)))
          let rest := runBatches cfg bl (k + 1)
          { results := cfg.reorder (commitRes.map (fun q => (q.1, q.2.error)))
              ++ rest.results
            raised := rest.raised
            trace := acq.trace ++ relTrace cfg.rmFail acq.ws ++ rest.trace
            attempted := acq.ws.map Prod.fst ++ rest.attempted
            validateCalls :=
              (commitRes.map (fun q => q.2.validateCalled.toNat)).sum
                + rest.validateCalls
            poolSizes := min cfg.maxWorkers b.length :: rest.poolSizes }

/-- Shallow embedding of `process_commits_in_parallel` (processing.py,
lines 433-506): slice the enumerated commit list into batches of
`batch_size` and run the batch loop. -/
def process_commits_in_parallel (cfg : BatchCfg) (commits : List Sha)
    (batchSize : Nat) : ParOutput :=
  runBatches cfg (chunks batchSize commits.enum) 0

/-! ### Trace semantics

`liveAfter` tracks which linked working trees currently exist on disk
(`addWorktree` creates one, a successful `removeWorktree` deletes it —
`git worktree remove` deletes the worktree directory only).  `rootsAfter`
tracks the mkdtemp temporary roots, which no event ever deletes.
`maxLive` is the largest number of simultaneously existing worktrees at
any moment along the trace. -/

/-- Effect of one event on the list of live worktree indices. -/
def liveStep (live : List Nat) : FsEvent → List Nat
  | .mkTempRoot _ => live
  | .addWorktree i => i :: live
  | .removeWorktree i ok => if ok then live.erase i else live

/-- Live worktrees after a trace. -/
def liveAfter (live : List Nat) : List FsEvent → List Nat
  | [] => live
  | e :: tr => liveAfter (liveStep live e) tr

/-- Maximum number of simultaneously live worktrees along a trace. -/
def maxLive (live : List Nat) : List FsEvent → Nat
  | [] => live.length
  | e :: tr => max live.length (maxLive (liveStep live e) tr)

/-- Temporary mkdtemp roots existing after a trace: created by
`mkTempRoot`, never removed by any event (the source never removes
them). -/
def rootsAfter (roots : List Nat) : List FsEvent → List Nat
  | [] => roots
  | .mkTempRoot i :: tr => rootsAfter (i :: roots) tr
  | _ :: tr => rootsAfter roots tr

/-- Indices of the `addWorktree` events of a trace, in order. -/
def addsOf (tr : List FsEvent) : List Nat :=
  tr.filterMap (fun e => match e with | .addWorktree i => some i | _ => none)

/-! ## Sequential mode (`benchmark_command`, commands.py lines 238-256)

With `max_workers = 1` and no `--local-checkout`, `benchmark_command`
loops over the commits in input order, calls `process_commit` for each,
and appends `(commit, error)` to the `errors` list only when the error is
not `None`.  Each `process_commit` call creates its temporary build
directory after the previous call has already removed its own in the
`finally` block, so builds never overlap. -/

/-- Build-isolation lifecycle events of the sequential loop: the
temporary build directory of one `process_commit` call is created and
then removed by its `finally` block before the next commit starts. -/
inductive SeqEv
  | createBuild (c : Sha)
  | destroyBuild (c : Sha)
deriving DecidableEq, Repr

/-- Observable outcome of the sequential branch of `benchmark_command`:
the `errors` list (failing commits only, in input order), the number of
commits attempted, the number of per-commit
`validate_binary_and_environment` calls, and the build-directory
lifecycle trace. -/
structure SeqOutput where
  errors : List (Sha × String)
  attempted : Nat
  validateCalls : Nat
  trace : List SeqEv
deriving Repr

/-- The sequential processing loop of `benchmark_command`: one
`process_commit` call per commit, in input order, collecting only the
failing commits into `errors`. -/
def process_commits_sequential (force : Bool) (env : Sha → CommitEnv) :
    List Sha → SeqOutput
  | [] => { errors := [], attempted := 0, validateCalls := 0, trace := [] }
  | c :: rest =>
    let r := process_commit c force (env c)
    let out := process_commits_sequential force env rest
    { errors :=
        match r.error with
        | some e => (c, e) :: out.errors
        | none => out.errors
      attempted := out.attempted + 1
      validateCalls := r.validateCalled.toNat + out.validateCalls
      trace :=
        (if r.buildDirCreated then [.createBuild c, .destroyBuild c] else [])
          ++ out.trace }

/-- Number of simultaneously existing build directories along a
sequential trace, starting from `live` and recording the maximum. -/
def seqMaxLive (live : Nat) : List SeqEv → Nat
  | [] => live
  | .createBuild _ :: tr => max (live + 1) (seqMaxLive (live + 1) tr)
  | .destroyBuild _ :: tr => max live (seqMaxLive (live - 1) tr)

/-! ## Local-checkout mode: `process_commits_local_checkout`

`process_commits_local_checkout` (processing.py, lines 14-186) cleans the
shared checkout (`git clean -fxd`), configures once, then loops over the
commits: checkout, run-directory handling (same as `process_commit`),
make, venv, pip, per-commit validation, benchmarks, upload (failures
swallowed).  Unlike the other modes it returns a single
`Optional[str]`: the first failing commit makes the whole function return
that error immediately, so later commits are never attempted. -/

/-- External world of one commit in local-checkout mode.  There is no
per-commit configure or `make install` in this mode. -/
structure LocalCommitEnv where
  checkoutOk : Bool
  runDirExists : Bool
  rmtreeOk : Bool
  make : ProcOutcome
  venv : ProcOutcome
  pip : ProcOutcome
  validateOk : Bool
  benchmarks : ProcOutcome
  upload : UploadEnv
deriving Repr

/-- External world of the shared-checkout preparation: the `git clean
-fxd` call and the single configure run. -/
structure LocalEnv where
  cleanOk : Bool
  configure : ProcOutcome
deriving Repr

/-- Observable outcome of `process_commits_local_checkout`: the returned
`Optional[str]`, the number of commits attempted before returning, and
the number of per-commit validation calls. -/
structure LocalOutput where
  error : Option String
  attempted : Nat
  validateCalls : Nat
deriving Repr

/-- The per-commit loop of `process_commits_local_checkout`. -/
def localLoop (force : Bool) (env : Sha → LocalCommitEnv) :
    List Sha → LocalOutput
  | [] => { error := none, attempted := 0, validateCalls := 0 }
  | c :: rest =>
    let e := env c
    if ¬ e.checkoutOk then
      { error := some "Unexpected error in local checkout mode"
        attempted := 1, validateCalls := 0 }
    else if e.runDirExists ∧ ¬ force then
      { error := some ("Output directory for commit " ++ c ++
          " already exists")
        attempted := 1, validateCalls := 0 }
    else if e.runDirExists ∧ ¬ e.rmtreeOk then
      { error := some "Failed to remove existing directory"
        attempted := 1, validateCalls := 0 }
    else
      match e.make with
      | .fail msg =>
          { error := some ("Error processing commit " ++ c ++ ": " ++ msg)
            attempted := 1, validateCalls := 0 }
      | .ok =>
      match e.venv with
      | .fail msg =>
          { error := some ("Error processing commit " ++ c ++ ": " ++ msg)
            attempted := 1, validateCalls := 0 }
      | .ok =>
      match e.pip with
      | .fail msg =>
          { error := some ("Error processing commit " ++ c ++ ": " ++ msg)
            attempted := 1, validateCalls := 0 }
      | .ok =>
      if ¬ e.validateOk then
        { error := some ("Validation failed for commit " ++ c)
          attempted := 1, validateCalls := 1 }
      else
        match e.benchmarks with
        | .fail msg =>
            { error := some ("Error processing commit " ++ c ++ ": " ++ msg)
              attempted := 1, validateCalls := 1 }
        | .ok =>
            -- Upload failures are logged and swallowed; the loop continues.
            let out := localLoop force env rest
            { error := out.error
              attempted := out.attempted + 1
              validateCalls := out.validateCalls + 1 }

/-- Shallow embedding of `process_commits_local_checkout` (processing.py,
lines 14-186): clean and configure the shared checkout once (failures of
either fall to the outer `except Exception`), then run the per-commit
loop, returning the first error, if any. -/
def process_commits_local_checkout (le : LocalEnv) (force : Bool)
    (env : Sha → LocalCommitEnv) (commits : List Sha) : LocalOutput :=
  if ¬ le.cleanOk then
    { error := some "Unexpected error in local checkout mode"
      attempted := 0, validateCalls := 0 }
  else
    match le.configure with
    | .fail _ =>
        { error := some "Unexpected error in local checkout mode"
          attempted := 0, validateCalls := 0 }
    | .ok => localLoop force env commits

/-! ## CLI dispatch: `benchmark_command` (commands.py, lines 93-269)

`benchmark_command` runs the pre-flight gates in order (prerequisites,
repository, commit-range validation, output directory, build
environment), then calls `validate_binary_and_environment` exactly once,
then resolves the commit list and the remaining argument checks
(local-checkout vs parallel conflict, `max_workers ≥ 1`,
`batch_size ≥ 1` defaulting to `max_workers`, auth token).  Any failure
exits before any commit is processed.  Dispatch: parallel when
`max_workers > 1`, local-checkout when the flag is set, sequential
otherwise. -/

/-- Pre-flight world and arguments of `benchmark_command`. -/
structure CliEnv where
  prereqOk : Bool
  repoOk : Bool
  commitRangeOk : Bool
  outputDirOk : Bool
  buildEnvOk : Bool
  preflightValidateOk : Bool
  getCommitsOk : Bool
  localCheckout : Bool
  maxWorkers : Nat
  batchSize : Option Nat
  authTokenPresent : Bool
deriving Repr

/-- Which processing branch `benchmark_command` takes. -/
inductive Mode
  | parallel
  | localCheckout
  | sequential
deriving DecidableEq, Repr

/-- Aggregate `errors` list printed in the final summary: `none` in the
first component models local-checkout mode, whose single error is not
bound to a commit. -/
abbrev CliErrors := List (Option Sha × String)

/-- Observable outcome of `benchmark_command`: whether it exited during
pre-flight, how often the pre-flight
`validate_binary_and_environment` call ran (0 or 1), the chosen mode, the
final `errors` list, the per-commit validation calls made by the chosen
mode, and how many isolations (worktrees or build directories) were
created. -/
structure CliOutput where
  exitedEarly : Bool
  preflightValidateCalls : Nat
  mode : Option Mode
  errors : CliErrors
  perCommitValidateCalls : Nat
  isolationsCreated : Nat
deriving Repr

/-- Outcome shape of the pre-flight exits of `benchmark_command`. -/
def cliEarlyExit (validateCalls : Nat) : CliOutput :=
  { exitedEarly := true, preflightValidateCalls := validateCalls
    mode := none, errors := [], perCommitValidateCalls := 0
    isolationsCreated := 0 }

/-- Shallow embedding of `benchmark_command` (commands.py, lines 93-269).
The checks run in source order; the pre-flight validation call happens
only when the five earlier gates passed, and every exit before dispatch
processes zero commits and creates zero isolations. -/
def benchmark_command (ce : CliEnv) (cfg : BatchCfg) (le : LocalEnv)
    (lenv : Sha → LocalCommitEnv) (commits : List Sha) : CliOutput :=
  if ¬ (ce.prereqOk ∧ ce.repoOk ∧ ce.commitRangeOk ∧ ce.outputDirOk ∧
        ce.buildEnvOk) then
    cliEarlyExit 0
  else if ¬ ce.preflightValidateOk then
    cliEarlyExit 1
  else if ¬ ce.getCommitsOk then
    cliEarlyExit 1
  else if ce.localCheckout ∧ 1 < ce.maxWorkers then
    cliEarlyExit 1
  else if ce.maxWorkers < 1 then
    cliEarlyExit 1
  else
    let batchSize := ce.batchSize.getD ce.maxWorkers
    if batchSize < 1 then
      cliEarlyExit 1
    else if ¬ ce.authTokenPresent then
      cliEarlyExit 1
    else if 1 < ce.maxWorkers then
      let out := process_commits_in_parallel
        { cfg with maxWorkers := ce.maxWorkers } commits batchSize
      { exitedEarly := false, preflightValidateCalls := 1
        mode := some .parallel
        errors := out.results.filterMap
          (fun r => match r.2 with
            | some e => some (some r.1, e)
            | none => none)
        perCommitValidateCalls := out.validateCalls
        isolationsCreated := (addsOf out.trace).length }
    else if ce.localCheckout then
      let out := process_commits_local_checkout le cfg.force lenv commits
      { exitedEarly := false, preflightValidateCalls := 1
        mode := some .localCheckout
        errors :=
          match out.error with
          | some e => [(none, e)]
          | none => []
        perCommitValidateCalls := out.validateCalls
        isolationsCreated := 0 }
    else
      let out := process_commits_sequential cfg.force cfg.env commits
      { exitedEarly := false, preflightValidateCalls := 1
        mode := some .sequential
        errors := out.errors.map (fun r => (some r.1, r.2))
        perCommitValidateCalls := out.validateCalls
        isolationsCreated :=
          (out.trace.filter
            (fun e => match e with | .createBuild _ => true | _ => false)).length }

/-! ## Tracking-service upload endpoint: `upload_worker_run`
(backend/app/routers/upload.py, lines 92-316)

The endpoint validates the payload (commit sha present, binary and
environment registered, registered configure flags a subset of the
uploaded `CONFIG_ARGS`), creates the commit record if missing (each CRUD
helper commits its transaction immediately), builds
`run_id = "run_" + sha[:8] + "_" + binary + "_" + env + "_" +
int(now.timestamp())`, inserts the run, then one benchmark-result row per
uploaded result with id `run_id + "_" + name.replace("_", "-")`.

The `except IntegrityError` handler answers HTTP 409 only when the error
text contains `unique_commit_binary_env`.  The schema
(backend/app/models.py) defines no constraint of that name: `runs` has
only the primary key `run_id` and non-unique indexes over
(commit_sha, binary_id, environment_id), and `benchmark_results` has the
primary key `id`.  An `IntegrityError` can therefore only come from those
primary keys, whose error text names the column, so the handler always
falls into the 500 branch. -/

/-- A row of the `runs` table (the columns the claims mention). -/
structure RunRec where
  run_id : String
  commit_sha : String
  binary_id : String
  environment_id : String
deriving DecidableEq, Repr

/-- Database state visible to `upload_worker_run`: registered commits,
binaries (with their registered configure flags), environments, runs and
benchmark-result ids. -/
structure Db where
  commits : List String
  binaries : List (String × List String)
  environments : List String
  runs : List RunRec
  results : List String
deriving Repr

/-- The worker upload payload (schemas.WorkerRunUpload), reduced to the
fields the endpoint reads: the commit sha from the metadata (empty models
a missing sha), the `CONFIG_ARGS` configure flags, the benchmark names,
and the target binary and environment ids. -/
structure WorkerUpload where
  commit_sha : String
  config_args : List String
  benchmark_names : List String
  binary_id : String
  environment_id : String
deriving Repr

/-- HTTP reply of the endpoint: success (with the created run id and
result count) or an `HTTPException` with a status and detail. -/
inductive HttpReply
  | ok (run_id : String) (results_created : Nat)
  | httpException (status : Nat) (detail : String)
deriving DecidableEq, Repr

/-- `name.replace("_", "-")` on benchmark names when forming result
ids. -/
def dashed (s : String) : String :=
  s.map (fun ch => if ch = '_' then '-' else ch)

/-- Sequential insertion of benchmark-result rows.  Each insert commits
immediately; a primary-key collision raises `IntegrityError` whose text
names `benchmark_results.id`, leaving the rows already inserted in
place. -/
def insertResults (run_id : String) :
    List String → List String → (Option String × List String × Nat)
  | results, [] => (none, results, 0)
  | results, name :: rest =>
    let rid := run_id ++ "_" ++ dashed name
    if rid ∈ results then
      (some "UNIQUE constraint failed: benchmark_results.id", results, 0)
    else
      let (err, results2, n) := insertResults run_id (rid :: results) rest
      (err, results2, n + 1)

/-- Shallow embedding of `upload_worker_run` (upload.py, lines 92-316),
returning the HTTP reply together with the database state afterwards.
`now` is the integer timestamp used in the generated run id.  The
flamegraph retention pass (`cleanup_old_flamegraphs_if_needed`) only
nulls `flamegraph_html` blobs of old runs and is outside this model. -/
def upload_worker_run (db : Db) (u : WorkerUpload) (now : Nat) :
    HttpReply × Db :=
  if u.commit_sha = "" then
    (.httpException 400 "Missing commit SHA in metadata", db)
  else
    match db.binaries.find? (fun b => b.1 = u.binary_id) with
    | none =>
        (.httpException 400 ("Binary " ++ u.binary_id ++
          " not found. Binaries must be pre-registered."), db)
    | some bin =>
      if u.environment_id ∉ db.environments then
        (.httpException 400 ("Environment " ++ u.environment_id ++
          " not found. Environments must be pre-registered."), db)
      else if ¬ (bin.2 = [] ∨ bin.2.all (fun f => f ∈ u.config_args)) then
        (.httpException 400 ("Binary " ++ u.binary_id ++
          " requires configure flags missing from the upload."), db)
      else
        -- create_commit commits its transaction immediately, so the new
        -- commit row persists whatever happens later.
        let db1 :=
          if u.commit_sha ∈ db.commits then db
          else { db with commits := u.commit_sha :: db.commits }
        let run_id := "run_" ++ u.commit_sha.take 8 ++ "_" ++ u.binary_id ++
          "_" ++ u.environment_id ++ "_" ++ toString now
        if db1.runs.any (fun r => r.run_id = run_id) then
          -- IntegrityError from the runs primary key; its text does not
          -- contain the substring unique_commit_binary_env, so the
          -- handler answers 500, not 409.
          (.httpException 500 "Database integrity error", db1)
        else
          let db2 := { db1 with runs :=
            { run_id := run_id, commit_sha := u.commit_sha
              binary_id := u.binary_id
              environment_id := u.environment_id } :: db1.runs }
          match insertResults run_id db2.results u.benchmark_names with
          | (some _, results2, _) =>
              -- IntegrityError from benchmark_results.id: again no
              -- unique_commit_binary_env substring, so HTTP 500; the run
              -- row and earlier result rows are already committed.
              (.httpException 500 "Database integrity error",
                { db2 with results := results2 })
          | (none, results2, n) =>
              (.ok run_id n, { db2 with results := results2 })

/-- A commit environment in which every external step succeeds. -/
def okCommitEnv : CommitEnv :=
  { checkoutOk := true
    runDirExists := false
    rmtreeOk := true
    configure := .ok
    make := .ok
    makeInstall := .ok
    venv := .ok
    pip := .ok
    validateOk := true
    benchmarks := .ok
    upload := { metadataExists := true, response := .success } }

/-- A batch configuration in which every external step succeeds, the
completion order equals submission order, and no teardown fails. -/
def okBatchCfg (mw : Nat) : BatchCfg :=
  { force := false
    env := fun _ => okCommitEnv
    reorder := id
    acqFail := fun _ => none
    poolFail := fun _ => none
    rmFail := fun _ => false
    maxWorkers := mw }

/-! ### Helper lemmas about the trace semantics -/

theorem le_maxLive (live : List Nat) (tr : List FsEvent) :
    live.length ≤ maxLive live tr := by
  cases tr with
  | nil => simp [maxLive]
  | cons e t => simp [maxLive]

theorem maxLive_append (t1 t2 : List FsEvent) (live : List Nat) :
    maxLive live (t1 ++ t2) =
      max (maxLive live t1) (maxLive (liveAfter live t1) t2) := by
  induction t1 generalizing live with
  | nil =>
      simp only [List.nil_append, maxLive, liveAfter]
      exact (Nat.max_eq_right (le_maxLive _ _)).symm
  | cons e tr ih =>
      simp [maxLive, liveAfter, ih, Nat.max_assoc]

theorem liveAfter_append (t1 t2 : List FsEvent) (live : List Nat) :
    liveAfter live (t1 ++ t2) = liveAfter (liveAfter live t1) t2 := by
  induction t1 generalizing live with
  | nil => simp [liveAfter]
  | cons e tr ih => simp [liveAfter, ih]

theorem length_liveStep_le (live : List Nat) (e : FsEvent) :
    (liveStep live e).length ≤ live.length + 1 := by
  cases e with
  | mkTempRoot i => simp [liveStep]
  | addWorktree i => simp [liveStep]
  | removeWorktree i ok =>
      cases ok with
      | true =>
          simp only [liveStep, if_pos rfl]
          exact Nat.le_succ_of_le (List.length_erase_le _ _)
      | false => simp [liveStep]

/-- The mkdtemp temporary roots are never removed: whatever exists before
a trace still exists after it. -/
theorem rootsAfter_superset (tr : List FsEvent) (roots : List Nat) :
    roots ⊆ rootsAfter roots tr := by
  induction tr generalizing roots with
  | nil => simp [rootsAfter]
  | cons e tr ih =>
      cases e with
      | mkTempRoot i =>
          exact fun x hx =>
            ih (i :: roots) (List.mem_cons_of_mem i hx)
      | addWorktree i => exact ih roots
      | removeWorktree i ok => exact ih roots

theorem addsOf_append (t1 t2 : List FsEvent) :
    addsOf (t1 ++ t2) = addsOf t1 ++ addsOf t2 := by
  simp [addsOf, List.filterMap_append]

theorem mem_addsOf (tr : List FsEvent) (j : Nat) :
    j ∈ addsOf tr ↔ FsEvent.addWorktree j ∈ tr := by
  induction tr with
  | nil => simp [addsOf]
  | cons e tr ih =>
      simp only [addsOf] at ih
      cases e with
      | mkTempRoot i => simp [addsOf, List.filterMap_cons, ih]
      | removeWorktree i ok => simp [addsOf, List.filterMap_cons, ih]
      | addWorktree i =>
          simp only [addsOf, List.filterMap_cons, List.mem_cons, ih]
          constructor
          · rintro (rfl | h)
            · exact Or.inl rfl
            · exact Or.inr h
          · rintro (h | h)
            · exact Or.inl (by injection h)
            · exact Or.inr h

/-! ### Helper lemmas about acquisition and teardown of one batch -/

theorem acq_ws_sublist (f : Nat → Option String) (b : List (Nat × Sha)) :
    List.Sublist (acquireBatch f b).ws b := by
  induction b with
  | nil => simp [acquireBatch]
  | cons p rest ih =>
      cases h : f p.1 with
      | some msg => simp [acquireBatch, h]
      | none => simpa [acquireBatch, h] using ih.cons₂ p

theorem acq_ws_of_no_fail (f : Nat → Option String) (b : List (Nat × Sha))
    (h : ∀ j, f j = none) : (acquireBatch f b).ws = b := by
  induction b with
  | nil => simp [acquireBatch]
  | cons p rest ih => simp [acquireBatch, h, ih]

theorem acq_err_of_no_fail (f : Nat → Option String) (b : List (Nat × Sha))
    (h : ∀ j, f j = none) : (acquireBatch f b).err = none := by
  induction b with
  | nil => simp [acquireBatch]
  | cons p rest ih => simp [acquireBatch, h, ih]

theorem acq_liveAfter (f : Nat → Option String) (b : List (Nat × Sha))
    (live : List Nat) :
    liveAfter live (acquireBatch f b).trace =
      ((acquireBatch f b).ws.map Prod.fst).reverse ++ live := by
  induction b generalizing live with
  | nil => simp [acquireBatch, liveAfter]
  | cons p rest ih =>
      cases h : f p.1 with
      | some msg => simp [acquireBatch, h, liveAfter, liveStep]
      | none => simp [acquireBatch, h, liveAfter, liveStep, ih]

theorem acq_maxLive (f : Nat → Option String) (b : List (Nat × Sha))
    (live : List Nat) :
    maxLive live (acquireBatch f b).trace ≤
      live.length + (acquireBatch f b).ws.length := by
  induction b generalizing live with
  | nil => simp [acquireBatch, maxLive]
  | cons p rest ih =>
      cases h : f p.1 with
      | some msg => simp [acquireBatch, h, maxLive, liveStep]
      | none =>
          have := ih (p.1 :: live)
          simp only [acquireBatch, h, maxLive, liveStep, List.length_cons,
            List.length_map] at this ⊢
          omega

theorem acq_addsOf (f : Nat → Option String) (b : List (Nat × Sha)) :
    addsOf (acquireBatch f b).trace = (acquireBatch f b).ws.map Prod.fst := by
  induction b with
  | nil => simp [acquireBatch, addsOf]
  | cons p rest ih =>
      cases h : f p.1 with
      | some msg => simp [acquireBatch, h, addsOf, List.filterMap_cons]
      | none =>
          simp only [addsOf] at ih
          simp [acquireBatch, h, addsOf, List.filterMap_cons, ih]

theorem addsOf_relTrace (rf : Nat → Bool) (ws : List (Nat × Sha)) :
    addsOf (relTrace rf ws) = [] := by
  induction ws with
  | nil => simp [relTrace, addsOf]
  | cons p rest ih =>
      simp only [addsOf] at ih
      simp [relTrace, addsOf, List.filterMap_cons, ih]

theorem mem_relTrace (rf : Nat → Bool) (ws : List (Nat × Sha)) (j : Nat)
    (h : j ∈ ws.map Prod.fst) :
    FsEvent.removeWorktree j (! rf j) ∈ relTrace rf ws := by
  rcases List.mem_map.1 h with ⟨p, hp, rfl⟩
  exact List.mem_map.2 ⟨p, hp, rfl⟩

theorem maxLive_relTrace (rf : Nat → Bool) (ws : List (Nat × Sha))
    (live : List Nat) : maxLive live (relTrace rf ws) ≤ live.length := by
  induction ws generalizing live with
  | nil => simp [relTrace, maxLive]
  | cons p rest ih =>
      simp only [relTrace, List.map_cons, maxLive, liveStep]
      by_cases h : rf p.1 <;> simp [h]
      · exact ih live
      · refine le_trans (ih _) ?_
        exact List.length_erase_le _ _

theorem liveAfter_relTrace_ok (rf : Nat → Bool) (ws : List (Nat × Sha))
    (s : List Nat) (hok : ∀ p ∈ ws, rf p.1 = false)
    (hnd : (ws.map Prod.fst).Nodup) (hdisj : ∀ p ∈ ws, p.1 ∉ s) :
    liveAfter ((ws.map Prod.fst).reverse ++ s) (relTrace rf ws) = s := by
  induction ws generalizing s with
  | nil => simp [relTrace, liveAfter]
  | cons p rest ih =>
      have hp : rf p.1 = false := hok p (List.mem_cons_self p rest)
      have hnotrest : p.1 ∉ rest.map Prod.fst := by
        simp only [List.map_cons, List.nodup_cons] at hnd
        exact hnd.1
      have herase :
          ((rest.map Prod.fst).reverse ++ p.1 :: s).erase p.1 =
            (rest.map Prod.fst).reverse ++ s := by
        rw [List.erase_append_right _ (by simpa using hnotrest)]
        simp [List.erase_cons_head]
      simp only [List.map_cons, List.reverse_cons, List.append_assoc,
        List.singleton_append, relTrace, List.map_cons, liveAfter, liveStep, hp]
      simp only [Bool.not_false, if_pos rfl, herase]
      have := ih s (fun q hq => hok q (List.mem_cons_of_mem p hq))
        (by simp only [List.map_cons, List.nodup_cons] at hnd; exact hnd.2)
        (fun q hq => hdisj q (List.mem_cons_of_mem p hq))
      simpa [relTrace] using this

/-! ### Helper lemmas about the batch loop -/

/-- One batch segment of the trace: acquisition followed by the `finally`
teardown. -/
def batchSeg (cfg : BatchCfg) (b : List (Nat × Sha)) : List FsEvent :=
  (acquireBatch cfg.acqFail b).trace ++
    relTrace cfg.rmFail (acquireBatch cfg.acqFail b).ws

theorem batchSeg_liveAfter (cfg : BatchCfg) (b : List (Nat × Sha))
    (hrm : ∀ j, cfg.rmFail j = false) (hnd : (b.map Prod.fst).Nodup) :
    liveAfter [] (batchSeg cfg b) = [] := by
  have hsub : List.Sublist ((acquireBatch cfg.acqFail b).ws.map Prod.fst)
      (b.map Prod.fst) := (acq_ws_sublist cfg.acqFail b).map Prod.fst
  have hndws := hnd.sublist hsub
  rw [batchSeg, liveAfter_append, acq_liveAfter]
  have := liveAfter_relTrace_ok cfg.rmFail (acquireBatch cfg.acqFail b).ws
    [] (fun p _ => hrm p.1) hndws (by simp)
  simpa using this

theorem batchSeg_maxLive (cfg : BatchCfg) (b : List (Nat × Sha)) :
    maxLive [] (batchSeg cfg b) ≤ b.length := by
  have hsub := acq_ws_sublist cfg.acqFail b
  rw [batchSeg, maxLive_append]
  have h1 : maxLive [] (acquireBatch cfg.acqFail b).trace ≤
      (acquireBatch cfg.acqFail b).ws.length := by
    simpa using acq_maxLive cfg.acqFail b []
  have h2 : maxLive (liveAfter [] (acquireBatch cfg.acqFail b).trace)
      (relTrace cfg.rmFail (acquireBatch cfg.acqFail b).ws) ≤
      (acquireBatch cfg.acqFail b).ws.length := by
    refine le_trans (maxLive_relTrace _ _ _) ?_
    rw [acq_liveAfter]
    simp
  have := hsub.length_le
  omega

theorem batchSeg_addsOf (cfg : BatchCfg) (b : List (Nat × Sha)) :
    addsOf (batchSeg cfg b) = (acquireBatch cfg.acqFail b).ws.map Prod.fst := by
  rw [batchSeg, addsOf_append, acq_addsOf, addsOf_relTrace, List.append_nil]

/-- The trace of the batch loop is the concatenation of per-batch
segments (acquisitions, then teardown attempts), one segment per batch
actually entered; in particular every teardown attempt of a batch comes
after every acquisition of that batch, and batches are strictly
sequential. -/
theorem runBatches_trace_shape (cfg : BatchCfg) :
    ∀ (bl : List (List (Nat × Sha))) (k : Nat),
      ∃ bl2, (∃ tail, bl2 ++ tail = bl) ∧
        (runBatches cfg bl k).trace = (bl2.map (batchSeg cfg)).flatten
  | [], _ => ⟨[], by simp [runBatches]⟩
  | b :: bl, k => by
      cases hacq : (acquireBatch cfg.acqFail b).err with
      | some msg =>
          exact ⟨[b], ⟨bl, rfl⟩, by simp [runBatches, hacq, batchSeg]⟩
      | none =>
          cases hpool : cfg.poolFail k with
          | some msg =>
              exact ⟨[b], ⟨bl, rfl⟩, by simp [runBatches, hacq, hpool, batchSeg]⟩
          | none =>
              obtain ⟨bl2, ⟨tail, htail⟩, htr⟩ :=
                runBatches_trace_shape cfg bl (k + 1)
              refine ⟨b :: bl2, ⟨tail, by rw [List.cons_append, htail]⟩, ?_⟩
              simp [runBatches, hacq, hpool, batchSeg, htr]

theorem flatten_batchSeg_liveAfter (cfg : BatchCfg)
    (hrm : ∀ j, cfg.rmFail j = false) :
    ∀ bl2 : List (List (Nat × Sha)),
      (∀ b ∈ bl2, (b.map Prod.fst).Nodup) →
      liveAfter [] ((bl2.map (batchSeg cfg)).flatten) = []
  | [], _ => by simp [liveAfter]
  | b :: bl2, h => by
      rw [List.map_cons, List.flatten_cons, liveAfter_append,
        batchSeg_liveAfter cfg b hrm (h b (List.mem_cons_self b bl2))]
      exact flatten_batchSeg_liveAfter cfg hrm bl2
        (fun x hx => h x (List.mem_cons_of_mem b hx))

theorem flatten_batchSeg_maxLive (cfg : BatchCfg) (B : Nat)
    (hrm : ∀ j, cfg.rmFail j = false) :
    ∀ bl2 : List (List (Nat × Sha)),
      (∀ b ∈ bl2, (b.map Prod.fst).Nodup ∧ b.length ≤ B) →
      maxLive [] ((bl2.map (batchSeg cfg)).flatten) ≤ B
  | [], _ => by simp [maxLive]
  | b :: bl2, h => by
      rw [List.map_cons, List.flatten_cons, maxLive_append,
        batchSeg_liveAfter cfg b hrm (h b (List.mem_cons_self b bl2)).1]
      have h1 := le_trans (batchSeg_maxLive cfg b) (h b (List.mem_cons_self b bl2)).2
      have h2 := flatten_batchSeg_maxLive cfg B hrm bl2
        (fun x hx => h x (List.mem_cons_of_mem b hx))
      omega

/-- Teardown is attempted for every acquired worktree: every
`addWorktree` event in the trace is matched by a `removeWorktree` attempt
for the same worktree (whatever its success), including the batches where
acquisition or the pool raised. -/
theorem flatten_batchSeg_teardown (cfg : BatchCfg) :
    ∀ (bl2 : List (List (Nat × Sha))) (j : Nat),
      FsEvent.addWorktree j ∈ (bl2.map (batchSeg cfg)).flatten →
      ∃ ok, FsEvent.removeWorktree j ok ∈ (bl2.map (batchSeg cfg)).flatten
  | [], j => by simp
  | b :: bl2, j => by
      intro hmem
      rw [List.map_cons, List.flatten_cons, List.mem_append] at hmem
      cases hmem with
      | inl h =>
          have hj : j ∈ addsOf (batchSeg cfg b) := (mem_addsOf _ j).2 h
          rw [batchSeg_addsOf] at hj
          refine ⟨! cfg.rmFail j, ?_⟩
          rw [List.map_cons, List.flatten_cons, List.mem_append]
          exact Or.inl (List.mem_append_right _ (mem_relTrace _ _ j hj))
      | inr h =>
          obtain ⟨ok, hok⟩ := flatten_batchSeg_teardown cfg bl2 j h
          exact ⟨ok, by
            rw [List.map_cons, List.flatten_cons, List.mem_append]
            exact Or.inr hok⟩

theorem runBatches_teardown_attempted (cfg : BatchCfg) :
    ∀ (bl : List (List (Nat × Sha))) (k : Nat) (j : Nat),
      FsEvent.addWorktree j ∈ (runBatches cfg bl k).trace →
      ∃ ok, FsEvent.removeWorktree j ok ∈ (runBatches cfg bl k).trace := by
  intro bl k j hmem
  obtain ⟨bl2, _, htr⟩ := runBatches_trace_shape cfg bl k
  rw [htr] at hmem ⊢
  exact flatten_batchSeg_teardown cfg bl2 j hmem

/-- The worktrees acquired by the batch loop all come from the batched
commit list. -/
theorem runBatches_addsOf_subset (cfg : BatchCfg) :
    ∀ (bl : List (List (Nat × Sha))) (k : Nat),
      addsOf (runBatches cfg bl k).trace ⊆ bl.flatten.map Prod.fst
  | [], k => by simp [runBatches, addsOf]
  | b :: bl, k => by
      have hws : (acquireBatch cfg.acqFail b).ws.map Prod.fst ⊆
          b.map Prod.fst := ((acq_ws_sublist cfg.acqFail b).map Prod.fst).subset
      have hsub : b.map Prod.fst ⊆ (b :: bl).flatten.map Prod.fst := by
        simp only [List.flatten_cons, List.map_append]
        exact List.subset_append_left _ _
      have hrest : bl.flatten.map Prod.fst ⊆ (b :: bl).flatten.map Prod.fst := by
        simp only [List.flatten_cons, List.map_append]
        exact List.subset_append_right _ _
      cases hacq : (acquireBatch cfg.acqFail b).err with
      | some msg =>
          simp only [runBatches, hacq, addsOf_append, acq_addsOf, addsOf_relTrace,
            List.append_nil]
          exact fun x hx => hsub (hws hx)
      | none =>
          cases hpool : cfg.poolFail k with
          | some msg =>
              simp only [runBatches, hacq, hpool, addsOf_append, acq_addsOf,
                addsOf_relTrace, List.append_nil]
              exact fun x hx => hsub (hws hx)
          | none =>
              have ih := runBatches_addsOf_subset cfg bl (k + 1)
              simp only [runBatches, hacq, hpool, List.append_assoc,
                addsOf_append, acq_addsOf, addsOf_relTrace, List.nil_append]
              intro x hx
              rcases List.mem_append.1 hx with h | h
              · exact hsub (hws h)
              · exact hrest (ih h)

/-- Each commit acquires at most one worktree over the whole run: the
`addWorktree` indices of the trace are pairwise distinct, provided the
batched commit indices are (which holds for the enumerated commit
list). -/
theorem runBatches_addsOf_nodup (cfg : BatchCfg) :
    ∀ (bl : List (List (Nat × Sha))) (k : Nat),
      (bl.flatten.map Prod.fst).Nodup →
      (addsOf (runBatches cfg bl k).trace).Nodup
  | [], k, _ => by simp [runBatches, addsOf]
  | b :: bl, k, hnd => by
      rw [List.flatten_cons, List.map_append, List.nodup_append] at hnd
      obtain ⟨hb, hbl, hdisj⟩ := hnd
      have hws : List.Sublist ((acquireBatch cfg.acqFail b).ws.map Prod.fst)
          (b.map Prod.fst) := (acq_ws_sublist cfg.acqFail b).map Prod.fst
      have hndws := hb.sublist hws
      cases hacq : (acquireBatch cfg.acqFail b).err with
      | some msg =>
          simpa [runBatches, hacq, addsOf_append, acq_addsOf, addsOf_relTrace]
            using hndws
      | none =>
          cases hpool : cfg.poolFail k with
          | some msg =>
              simpa [runBatches, hacq, hpool, addsOf_append, acq_addsOf,
                addsOf_relTrace] using hndws
          | none =>
              have ih := runBatches_addsOf_nodup cfg bl (k + 1) hbl
              have hsubrest := runBatches_addsOf_subset cfg bl (k + 1)
              simp only [runBatches, hacq, hpool, List.append_assoc,
                addsOf_append, acq_addsOf, addsOf_relTrace, List.nil_append]
              rw [List.nodup_append]
              refine ⟨hndws, ih, ?_⟩
              intro x hx hx2
              exact hdisj (hws.subset hx) (hsubrest hx2)

/-- Teardown failures are invisible to the caller: the results, the
escaping exception, the list of attempted removals and the validation
count of the batch loop do not depend on the removal-failure oracle. -/
theorem runBatches_rmFail_irrelevant (cfg : BatchCfg) (rf1 rf2 : Nat → Bool) :
    ∀ (bl : List (List (Nat × Sha))) (k : Nat),
      (runBatches { cfg with rmFail := rf1 } bl k).results =
        (runBatches { cfg with rmFail := rf2 } bl k).results ∧
      (runBatches { cfg with rmFail := rf1 } bl k).raised =
        (runBatches { cfg with rmFail := rf2 } bl k).raised ∧
      (runBatches { cfg with rmFail := rf1 } bl k).attempted =
        (runBatches { cfg with rmFail := rf2 } bl k).attempted ∧
      (runBatches { cfg with rmFail := rf1 } bl k).validateCalls =
        (runBatches { cfg with rmFail := rf2 } bl k).validateCalls
  | [], k => by simp [runBatches]
  | b :: bl, k => by
      have ih := runBatches_rmFail_irrelevant cfg rf1 rf2 bl (k + 1)
      cases hacq : (acquireBatch cfg.acqFail b).err with
      | some msg => simp [runBatches, hacq]
      | none =>
          cases hpool : cfg.poolFail k with
          | some msg => simp [runBatches, hacq, hpool]
          | none => simp [runBatches, hacq, hpool, ih.1, ih.2.1, ih.2.2.1, ih.2.2.2]

/-- When nothing external raises, the batch loop returns one result per
batched commit, raises nothing, and its per-commit validation count is
the sum over all batched commits. -/
theorem runBatches_no_failure (cfg : BatchCfg)
    (hacq : ∀ j, cfg.acqFail j = none) (hpool : ∀ k, cfg.poolFail k = none)
    (hperm : ∀ l, List.Perm (cfg.reorder l) l) :
    ∀ (bl : List (List (Nat × Sha))) (k : Nat),
      (runBatches cfg bl k).results.length = bl.flatten.length ∧
      (runBatches cfg bl k).raised = none ∧
      (runBatches cfg bl k).validateCalls =
        (bl.flatten.map (fun p =>
          (process_commit p.2 cfg.force (cfg.env p.2)).validateCalled.toNat)).sum
  | [], k => by simp [runBatches]
  | b :: bl, k => by
      have ih := runBatches_no_failure cfg hacq hpool hperm bl (k + 1)
      have hε := acq_err_of_no_fail cfg.acqFail b hacq
      have hws := acq_ws_of_no_fail cfg.acqFail b hacq
      refine ⟨?_, ?_, ?_⟩
      · simp only [runBatches, hε, hpool k, List.length_append,
          (hperm _).length_eq, List.length_map, hws, List.flatten_cons]
        rw [ih.1]
      · simp only [runBatches, hε, hpool k]
        exact ih.2.1
      · simp only [runBatches, hε, hpool k, hws, List.flatten_cons,
          List.map_append, List.sum_append, List.map_map]
        rw [ih.2.2]
        simp only [Function.comp_def]

/-! ### Helper lemmas about batching and the enumerated commit list -/

theorem chunks_flatten (batchSize : Nat) :
    ∀ l : List α, (chunks batchSize l).flatten = l
  | [] => by simp [chunks, chunksAux]
  | x :: xs => by
      have ih := chunks_flatten batchSize (xs.drop (batchSize - 1))
      rw [chunks_cons, List.flatten_cons, ih, List.cons_append,
        List.take_append_drop]
termination_by l => l.length
decreasing_by simp [List.length_drop]; omega

theorem chunks_mem_length_le (batchSize : Nat) (hbs : 1 ≤ batchSize) :
    ∀ (l b : List α), b ∈ chunks batchSize l → b.length ≤ batchSize
  | [], b => by simp [chunks, chunksAux]
  | x :: xs, b => by
      intro hmem
      rw [chunks_cons, List.mem_cons] at hmem
      cases hmem with
      | inl h =>
          subst h
          have := List.length_take (batchSize - 1) xs
          have := Nat.min_le_left (batchSize - 1) xs.length
          simp only [List.length_cons]
          omega
      | inr h => exact chunks_mem_length_le batchSize hbs _ b h
termination_by l => l.length
decreasing_by simp [List.length_drop]; omega

theorem chunks_mem_sublist (batchSize : Nat) :
    ∀ (l b : List α), b ∈ chunks batchSize l → List.Sublist b l
  | [], b => by simp [chunks, chunksAux]
  | x :: xs, b => by
      intro hmem
      rw [chunks_cons, List.mem_cons] at hmem
      cases hmem with
      | inl h =>
          subst h
          exact (List.take_sublist _ xs).cons₂ x
      | inr h =>
          exact ((chunks_mem_sublist batchSize _ b h).trans
            (List.drop_sublist _ xs)).trans (List.sublist_cons_self x xs)
termination_by l => l.length
decreasing_by simp [List.length_drop]; omega

/-- The indices of the enumerated commit list, batched, are pairwise
distinct overall. -/
theorem chunks_enum_flatten_nodup (commits : List Sha) (batchSize : Nat) :
    (((chunks batchSize commits.enum).flatten).map Prod.fst).Nodup := by
  rw [chunks_flatten, List.enum_map_fst]
  exact List.nodup_range _

/-- Each batch of the enumerated commit list has pairwise distinct
indices. -/
theorem chunks_enum_batch_nodup (commits : List Sha) (batchSize : Nat) :
    ∀ b ∈ chunks batchSize commits.enum, (b.map Prod.fst).Nodup := by
  intro b hb
  have hsub := (chunks_mem_sublist batchSize commits.enum b hb).map Prod.fst
  rw [List.enum_map_fst] at hsub
  exact (List.nodup_range _).sublist hsub

theorem chunks_enum_batch_facts (commits : List Sha) (batchSize : Nat)
    (hbs : 1 ≤ batchSize) :
    ∀ b ∈ chunks batchSize commits.enum,
      ((b.map Prod.fst).Nodup ∧ b.length ≤ batchSize) := by
  intro b hb
  exact ⟨chunks_enum_batch_nodup commits batchSize b hb,
    chunks_mem_length_le batchSize hbs commits.enum b hb⟩

/-! ### Helper lemmas about the sequential loop -/

theorem seq_attempted (force : Bool) (env : Sha → CommitEnv) :
    ∀ commits : List Sha,
      (process_commits_sequential force env commits).attempted = commits.length
  | [] => by simp [process_commits_sequential]
  | c :: rest => by
      have ih := seq_attempted force env rest
      cases h : (process_commit c force (env c)).error <;>
        simp [process_commits_sequential, h, ih]

theorem seq_errors_sublist (force : Bool) (env : Sha → CommitEnv) :
    ∀ commits : List Sha,
      List.Sublist
        ((process_commits_sequential force env commits).errors.map Prod.fst)
        commits
  | [] => by simp [process_commits_sequential]
  | c :: rest => by
      have ih := seq_errors_sublist force env rest
      cases h : (process_commit c force (env c)).error with
      | none =>
          simp only [process_commits_sequential, h]
          exact ih.trans (List.sublist_cons_self c rest)
      | some e =>
          simp only [process_commits_sequential, h, List.map_cons]
          exact ih.cons₂ c

theorem seq_errors_length (force : Bool) (env : Sha → CommitEnv) :
    ∀ commits : List Sha,
      (process_commits_sequential force env commits).errors.length =
        commits.countP (fun c => (process_commit c force (env c)).error.isSome)
  | [] => by simp [process_commits_sequential]
  | c :: rest => by
      have ih := seq_errors_length force env rest
      cases h : (process_commit c force (env c)).error <;>
        simp [process_commits_sequential, h, ih, List.countP_cons]

theorem seq_validateCalls (force : Bool) (env : Sha → CommitEnv) :
    ∀ commits : List Sha,
      (process_commits_sequential force env commits).validateCalls =
        (commits.map (fun c =>
          (process_commit c force (env c)).validateCalled.toNat)).sum
  | [] => by simp [process_commits_sequential]
  | c :: rest => by
      have ih := seq_validateCalls force env rest
      cases h : (process_commit c force (env c)).error <;>
        simp [process_commits_sequential, h, ih]

/-- At most one temporary build directory exists at any moment of the
sequential loop: each block of its trace creates one build directory and
destroys it before the next commit starts. -/
theorem seq_maxLive_le_one (force : Bool) (env : Sha → CommitEnv) :
    ∀ commits : List Sha,
      seqMaxLive 0 (process_commits_sequential force env commits).trace ≤ 1
  | [] => by simp [process_commits_sequential, seqMaxLive]
  | c :: rest => by
      have ih := seq_maxLive_le_one force env rest
      cases h : (process_commit c force (env c)).buildDirCreated with
      | false => simpa [process_commits_sequential, h] using ih
      | true =>
          simp [process_commits_sequential, h, seqMaxLive]
          omega

/-- Every thread pool created by the batch loop has size
`min(max_workers, len(batch))`, hence at most `min(max_workers, B)` when
all batches have length at most `B`. -/
theorem runBatches_poolSizes (cfg : BatchCfg) (B : Nat) :
    ∀ (bl : List (List (Nat × Sha))) (k : Nat),
      (∀ b ∈ bl, b.length ≤ B) →
      ∀ s ∈ (runBatches cfg bl k).poolSizes, s ≤ min cfg.maxWorkers B
  | [], k, _ => by simp [runBatches]
  | b :: bl, k, h => by
      have hb := h b (List.mem_cons_self b bl)
      have ih := runBatches_poolSizes cfg B bl (k + 1)
        (fun x hx => h x (List.mem_cons_of_mem b hx))
      cases hacq : (acquireBatch cfg.acqFail b).err with
      | some msg => simp [runBatches, hacq]
      | none =>
          cases hpool : cfg.poolFail k with
          | some msg =>
              simp only [runBatches, hacq, hpool, List.mem_singleton]
              rintro s rfl
              exact min_le_min (le_refl _) hb
          | none =>
              simp only [runBatches, hacq, hpool, List.mem_cons]
              rintro s (rfl | hs)
              · exact min_le_min (le_refl _) hb
              · exact ih s hs

/-! ### Helper lemmas about the local-checkout loop -/

theorem localLoop_attempted_le (force : Bool) (env : Sha → LocalCommitEnv) :
    ∀ commits : List Sha,
      (localLoop force env commits).attempted ≤ commits.length
  | [] => by simp [localLoop]
  | c :: rest => by
      have ih := localLoop_attempted_le force env rest
      simp only [localLoop, List.length_cons]
      repeat' split
      all_goals first
        | omega
        | (simp; omega)
        | simp

/-- A local-checkout commit environment that proceeds all the way through
the benchmark stage (whatever its upload outcome). -/
def localReachesUpload (force : Bool) (e : LocalCommitEnv) : Prop :=
  e.checkoutOk = true ∧
  (e.runDirExists = true → force = true ∧ e.rmtreeOk = true) ∧
  e.make = .ok ∧ e.venv = .ok ∧ e.pip = .ok ∧
  e.validateOk = true ∧ e.benchmarks = .ok

theorem localLoop_of_reaches (force : Bool) (env : Sha → LocalCommitEnv) :
    ∀ commits : List Sha,
      (∀ c ∈ commits, localReachesUpload force (env c)) →
      (localLoop force env commits).error = none ∧
      (localLoop force env commits).attempted = commits.length ∧
      (localLoop force env commits).validateCalls = commits.length
  | [], _ => by simp [localLoop]
  | c :: rest, h => by
      obtain ⟨h1, h2, h3, h4, h5, h6, h7⟩ := h c (List.mem_cons_self c rest)
      have ih := localLoop_of_reaches force env rest
        (fun x hx => h x (List.mem_cons_of_mem c hx))
      have hdir : ¬ ((env c).runDirExists ∧ ¬ force) := by
        rintro ⟨hd, hf⟩
        exact hf (h2 hd).1
      have hdir2 : ¬ ((env c).runDirExists ∧ ¬ (env c).rmtreeOk) := by
        rintro ⟨hd, hf⟩
        exact hf (h2 hd).2
      simp only [localLoop, h1, hdir, hdir2, h3, h4, h5, h6, h7,
        not_true_eq_false, if_neg, if_false, List.length_cons]
      refine ⟨ih.1, ?_, ?_⟩
      · rw [ih.2.1]
      · rw [ih.2.2]

/-- Prepending commits that reach the upload stage does not change the
outcome of the loop on the remaining commits: the error is the error of
the tail and the counters just shift by the number of prefix commits. -/
theorem localLoop_append_reaches (force : Bool) (env : Sha → LocalCommitEnv) :
    ∀ (pre rest : List Sha),
      (∀ x ∈ pre, localReachesUpload force (env x)) →
      (localLoop force env (pre ++ rest)).error =
        (localLoop force env rest).error ∧
      (localLoop force env (pre ++ rest)).attempted =
        pre.length + (localLoop force env rest).attempted ∧
      (localLoop force env (pre ++ rest)).validateCalls =
        pre.length + (localLoop force env rest).validateCalls
  | [], rest, _ => by simp
  | x :: pre, rest, h => by
      obtain ⟨h1, h2, h3, h4, h5, h6, h7⟩ := h x (List.mem_cons_self x pre)
      have ih := localLoop_append_reaches force env pre rest
        (fun y hy => h y (List.mem_cons_of_mem x hy))
      have hdir : ¬ ((env x).runDirExists ∧ ¬ force) := by
        rintro ⟨hd, hf⟩
        exact hf (h2 hd).1
      have hdir2 : ¬ ((env x).runDirExists ∧ ¬ (env x).rmtreeOk) := by
        rintro ⟨hd, hf⟩
        exact hf (h2 hd).2
      simp only [List.cons_append, List.append_eq, localLoop, h1, hdir, hdir2,
        h3, h4, h5, h6, h7, not_true_eq_false, if_neg, if_false,
        List.length_cons]
      refine ⟨ih.1, ?_, ?_⟩
      · rw [ih.2.1]
        omega
      · rw [ih.2.2]
        omega

/-- A failing head commit short-circuits the whole loop: the remaining
commits are never attempted and the returned error is the error of that
commit alone (as computed by the loop on the singleton list). -/
theorem localLoop_cons_fail (force : Bool) (env : Sha → LocalCommitEnv)
    (c : Sha) (post : List Sha) (err : String)
    (h : (localLoop force env [c]).error = some err) :
    (localLoop force env (c :: post)).error = some err ∧
    (localLoop force env (c :: post)).attempted = 1 := by
  simp only [localLoop] at h ⊢
  repeat' split at h
  all_goals (repeat' split)
  all_goals simp_all [localLoop]

/-- When the loop reports no error, every commit was attempted (the loop
returns early only with an error in hand). -/
theorem localLoop_error_none_attempted (force : Bool)
    (env : Sha → LocalCommitEnv) :
    ∀ commits : List Sha,
      (localLoop force env commits).error = none →
      (localLoop force env commits).attempted = commits.length
  | [] => by simp [localLoop]
  | c :: rest => by
      intro h
      have ih := localLoop_error_none_attempted force env rest
      simp only [localLoop, List.length_cons] at h ⊢
      repeat' split at h
      all_goals (repeat' split)
      all_goals simp_all

/-- Corollary: when every teardown succeeds and each batch has pairwise
distinct commit indices, no worktree survives the batch loop. -/
theorem runBatches_liveAfter_empty (cfg : BatchCfg)
    (hrm : ∀ j, cfg.rmFail j = false) (bl : List (List (Nat × Sha))) (k : Nat)
    (h : ∀ b ∈ bl, (b.map Prod.fst).Nodup) :
    liveAfter [] (runBatches cfg bl k).trace = [] := by
  obtain ⟨bl2, ⟨tail, htail⟩, htr⟩ := runBatches_trace_shape cfg bl k
  rw [htr]
  exact flatten_batchSeg_liveAfter cfg hrm bl2
    (fun b hb => h b (htail ▸ List.mem_append_left tail hb))

/-- Corollary: when every teardown succeeds, the number of simultaneously
live worktrees never exceeds the batch length bound. -/
theorem runBatches_maxLive_le (cfg : BatchCfg) (B : Nat)
    (hrm : ∀ j, cfg.rmFail j = false) (bl : List (List (Nat × Sha))) (k : Nat)
    (h : ∀ b ∈ bl, (b.map Prod.fst).Nodup ∧ b.length ≤ B) :
    maxLive [] (runBatches cfg bl k).trace ≤ B := by
  obtain ⟨bl2, ⟨tail, htail⟩, htr⟩ := runBatches_trace_shape cfg bl k
  rw [htr]
  exact flatten_batchSeg_maxLive cfg B hrm bl2
    (fun b hb => h b (htail ▸ List.mem_append_left tail hb))

/-! ### Small arithmetic helper -/

theorem sum_map_eq_length {α : Type} (f : α → Nat) :
    ∀ l : List α, (∀ c ∈ l, f c = 1) → (l.map f).sum = l.length
  | [], _ => by simp
  | c :: rest, h => by
      have ih := sum_map_eq_length f rest
        (fun x hx => h x (List.mem_cons_of_mem c hx))
      simp only [List.map_cons, List.sum_cons,
        h c (List.mem_cons_self c rest), ih, List.length_cons]
      omega

/-- A local-checkout commit environment in which every external step
succeeds. -/
def okLocalEnv : LocalCommitEnv :=
  { checkoutOk := true
    runDirExists := false
    rmtreeOk := true
    make := .ok
    venv := .ok
    pip := .ok
    validateOk := true
    benchmarks := .ok
    upload := { metadataExists := true, response := .success } }

/-- A local-checkout commit environment whose make stage fails. -/
def failLocalEnv : LocalCommitEnv :=
  { okLocalEnv with make := .fail "make exited 2" }

/-- A CLI environment in which every pre-flight gate passes. -/
def okCliEnv : CliEnv :=
  { prereqOk := true
    repoOk := true
    commitRangeOk := true
    outputDirOk := true
    buildEnvOk := true
    preflightValidateOk := true
    getCommitsOk := true
    localCheckout := false
    maxWorkers := 2
    batchSize := some 1
    authTokenPresent := true }

/-! ## Claim theorems -/

/-- Environment of a commit whose run directory already exists. -/
def dirExistsEnv : CommitEnv := { okCommitEnv with runDirExists := true }

/-- C5: when the per-commit output directory already exists and the
checkout stage succeeded, `process_commit` without the force flag
returns the "already exists" error immediately, touching nothing (no
removal, no run or build directory, no validation, no upload); with the
force flag and a successful `shutil.rmtree` it removes the existing
directory first and proceeds with a fresh run directory and a build
directory. -/
theorem existing_output_dir_handling (c : Sha) (e : CommitEnv)
    (hco : e.checkoutOk = true) (hdir : e.runDirExists = true) :
    process_commit c false e =
      earlyCommitResult ("Output directory for commit " ++ c ++
        " already exists") false ∧
    (e.rmtreeOk = true →
      (process_commit c true e).existingRemoved = true ∧
      (process_commit c true e).runDirCreated = true ∧
      (process_commit c true e).buildDirCreated = true) := by
  constructor
  · simp [process_commit, hco, hdir]
  · intro hrm
    simp only [process_commit, hco, hdir, hrm]
    repeat' split
    all_goals simp_all [earlyCommitResult, stageCommitResult, hdir]

/-- Witness for C5 at a concrete commit and environment. -/
theorem existing_output_dir_handling_witness :
    (process_commit "abc" false dirExistsEnv).error =
      some "Output directory for commit abc already exists" ∧
    (process_commit "abc" true dirExistsEnv).existingRemoved = true := by
  have h := existing_output_dir_handling "abc" dirExistsEnv rfl rfl
  exact ⟨by rw [h.1]; rfl, (h.2 rfl).1⟩

/-- Environment of a commit whose upload fails with a transport error. -/
def uploadFailEnv : CommitEnv :=
  { okCommitEnv with
      upload := { metadataExists := true
                  response := .transportError "connection refused" } }

/-- C2 counterexample: a commit whose upload raises (here a transport
failure, which `upload_results_to_server` turns into
`ValueError ("Connection failed: ...")`) is NOT marked failed:
`process_commit` swallows the exception in its `try/except` around the
upload call and returns `None`, so the `ProcessingResult` error is
`None`, contradicting the claim that it carries a non-None error. -/
theorem upload_failure_not_marked_failed :
    (upload_results_to_server uploadFailEnv.upload).result =
      .error "Connection failed: connection refused" ∧
    (process_commit "abc" false uploadFailEnv).error = none :=
  ⟨rfl, rfl⟩

/-- C2 (amended): for every commit whose upload step fails (any upload
exception, transport failure included), `process_commit` swallows the
exception and the ProcessingResult of the commit carries `error = None`
(the commit is reported as successful, not failed); the local artifacts
in the output directory are retained, exactly one upload attempt is made
(no automatic retry), and processing continues with the next commit. -/
theorem upload_failure_swallowed (c : Sha) (force : Bool) (e : CommitEnv)
    (h1 : e.checkoutOk = true) (h2 : e.runDirExists = false)
    (h3 : e.configure = .ok) (h4 : e.make = .ok) (h5 : e.makeInstall = .ok)
    (h6 : e.venv = .ok) (h7 : e.pip = .ok) (h8 : e.validateOk = true)
    (h9 : e.benchmarks = .ok) (h10 : e.upload.metadataExists = true)
    (_hfail : (upload_results_to_server e.upload).result ≠ .ok ()) :
    (process_commit c force e).error = none ∧
    (process_commit c force e).uploadCalled = true ∧
    (process_commit c force e).httpRequests = 1 ∧
    (process_commit c force e).artifactsRetained = true ∧
    (∀ rest : List Sha,
      (process_commits_sequential force (fun _ => e) (c :: rest)).attempted =
        rest.length + 1) := by
  have hreq : (upload_results_to_server e.upload).requests = 1 := by
    cases hr : e.upload.response <;>
      simp [upload_results_to_server, h10, hr]
  refine ⟨?_, ?_, ?_, ?_, ?_⟩
  · simp [process_commit, h1, h2, h3, h4, h5, h6, h7, h8, h9, stageCommitResult]
  · simp [process_commit, h1, h2, h3, h4, h5, h6, h7, h8, h9, stageCommitResult]
  · simp [process_commit, h1, h2, h3, h4, h5, h6, h7, h8, h9,
      stageCommitResult, hreq]
  · simp [process_commit, h1, h2, h3, h4, h5, h6, h7, h8, h9, stageCommitResult]
  · intro rest
    simpa using seq_attempted force (fun _ => e) (c :: rest)

/-- Witness for C2 (amended) at a concrete commit and environment. -/
theorem upload_failure_swallowed_witness :
    (process_commit "abc" false uploadFailEnv).error = none ∧
    (process_commit "abc" false uploadFailEnv).httpRequests = 1 := by
  have h := upload_failure_swallowed "abc" false uploadFailEnv rfl rfl rfl rfl
    rfl rfl rfl rfl rfl rfl (by simp [upload_results_to_server, uploadFailEnv,
      okCommitEnv])
  exact ⟨h.1, h.2.2.1⟩

/-- C7 counterexample: an HTTP 409 response produces exactly the same
error value as an HTTP 400 response with the same detail — the single
`ValueError ("Upload failed: " ++ detail)` — so there is no distinct
`ConflictError` distinguishable from the `ValidationError`; the code has
only one error shape for all HTTP statuses. -/
theorem http409_no_distinct_conflict_error :
    upload_results_to_server
        { metadataExists := true
          response := .httpError 409 (some "duplicate run") "" } =
      upload_results_to_server
        { metadataExists := true
          response := .httpError 400 (some "duplicate run") "" } ∧
    (upload_results_to_server
        { metadataExists := true
          response := .httpError 409 (some "duplicate run") "" }).result =
      .error "Upload failed: duplicate run" :=
  ⟨rfl, rfl⟩

/-- C7 (amended): every HTTP error response with a structured detail —
whatever its status, 409 included — is surfaced as the same
`ValueError ("Upload failed: " ++ detail)` carrying the server detail
verbatim; a transport failure raises
`ValueError ("Connection failed: " ++ msg)`; in both cases exactly one
request was issued (no retry).  No distinct `ConflictError` type
exists. -/
theorem upload_error_taxonomy (status : Nat) (d text m : String)
    (_hstatus : 400 ≤ status) :
    upload_results_to_server
        { metadataExists := true
          response := .httpError status (some d) text } =
      { result := .error ("Upload failed: " ++ d), requests := 1 } ∧
    upload_results_to_server
        { metadataExists := true, response := .transportError m } =
      { result := .error ("Connection failed: " ++ m), requests := 1 } :=
  ⟨rfl, rfl⟩

/-- Witness for C7 (amended) at status 409. -/
theorem upload_error_taxonomy_witness :
    upload_results_to_server
        { metadataExists := true
          response := .httpError 409 (some "dup") "" } =
      { result := .error "Upload failed: dup", requests := 1 } :=
  (upload_error_taxonomy 409 "dup" "" "net" (by decide)).1

/-- Environment of a commit whose run produced no `metadata.json`. -/
def noMetadataEnv : CommitEnv :=
  { okCommitEnv with
      upload := { metadataExists := false, response := .success } }

/-- C10: when the output directory holds no `metadata.json`, the uploader
logs an error and returns normally — no exception, no HTTP request — so a
commit whose run produced no metadata is reported as successful
(`error = None`) even though nothing was uploaded. -/
theorem missing_metadata_silent_success (r : UploadResponse) (c : Sha)
    (e : CommitEnv)
    (h1 : e.checkoutOk = true) (h2 : e.runDirExists = false)
    (h3 : e.configure = .ok) (h4 : e.make = .ok) (h5 : e.makeInstall = .ok)
    (h6 : e.venv = .ok) (h7 : e.pip = .ok) (h8 : e.validateOk = true)
    (h9 : e.benchmarks = .ok) (h10 : e.upload.metadataExists = false) :
    upload_results_to_server { metadataExists := false, response := r } =
      { result := .ok (), requests := 0 } ∧
    (process_commit c false e).error = none ∧
    (process_commit c false e).uploadCalled = true ∧
    (process_commit c false e).httpRequests = 0 := by
  have hreq : (upload_results_to_server e.upload).requests = 0 := by
    simp [upload_results_to_server, h10]
  refine ⟨rfl, ?_, ?_, ?_⟩
  · simp [process_commit, h1, h2, h3, h4, h5, h6, h7, h8, h9, stageCommitResult]
  · simp [process_commit, h1, h2, h3, h4, h5, h6, h7, h8, h9, stageCommitResult]
  · simp [process_commit, h1, h2, h3, h4, h5, h6, h7, h8, h9,
      stageCommitResult, hreq]

/-- Witness for C10 at a concrete commit and environment. -/
theorem missing_metadata_silent_success_witness :
    (process_commit "abc" false noMetadataEnv).error = none ∧
    (process_commit "abc" false noMetadataEnv).httpRequests = 0 := by
  have h := missing_metadata_silent_success .success "abc" noMetadataEnv
    rfl rfl rfl rfl rfl rfl rfl rfl rfl rfl
  exact ⟨h.2.1, h.2.2.2⟩

/-- Database with one registered binary (no flags) and one environment,
for the duplicate-upload scenario. -/
def dbC8 : Db :=
  { commits := [], binaries := [("b", [])], environments := ["e"]
    runs := [], results := [] }

/-- The duplicate-upload payload. -/
def uC8 : WorkerUpload :=
  { commit_sha := "0123456789abcdef", config_args := []
    benchmark_names := ["dict_operations"], binary_id := "b"
    environment_id := "e" }

/-- C8 (code bug): uploading the same (commit, binary, environment)
triple twice succeeds BOTH times.  The run id embeds the upload
timestamp, so the second insert does not collide with the first, and the
`unique_commit_binary_env` constraint named by the
`except IntegrityError` handler in upload.py (and by its comment at line
186) does not exist in models.py — `runs` only has non-unique indexes
over (commit_sha, binary_id, environment_id).  The second call creates a
second run and a second benchmark-result row for the same triple instead
of answering HTTP 409 with no new records. -/
theorem duplicate_upload_succeeds_twice :
    (upload_worker_run dbC8 uC8 1).1 = .ok "run_01234567_b_e_1" 1 ∧
    (upload_worker_run (upload_worker_run dbC8 uC8 1).2 uC8 2).1 =
      .ok "run_01234567_b_e_2" 1 ∧
    ((upload_worker_run (upload_worker_run dbC8 uC8 1).2 uC8 2).2.runs.map
        (fun r => (r.commit_sha, r.binary_id, r.environment_id))) =
      [("0123456789abcdef", "b", "e"), ("0123456789abcdef", "b", "e")] ∧
    (upload_worker_run (upload_worker_run dbC8 uC8 1).2 uC8 2).2.results.length
      = 2 :=
  ⟨rfl, rfl, rfl, rfl⟩

/-- C9: in sequential mode (`max_workers = 1`, no local checkout) the
loop processes the commits one at a time in input order: the error
entries it returns appear in exactly the input commit-range order (their
commits form a sublist of the input list), every input commit is
attempted, and at most one build isolation (the temporary build
directory of the current `process_commit` call) exists at any moment. -/
theorem sequential_order_and_single_isolation (force : Bool)
    (env : Sha → CommitEnv) (commits : List Sha) :
    List.Sublist
      ((process_commits_sequential force env commits).errors.map Prod.fst)
      commits ∧
    (process_commits_sequential force env commits).attempted =
      commits.length ∧
    seqMaxLive 0 (process_commits_sequential force env commits).trace ≤ 1 :=
  ⟨seq_errors_sublist force env commits, seq_attempted force env commits,
    seq_maxLive_le_one force env commits⟩

/-- C3 counterexample: in sequential mode the pipeline collects only the
failing commits, so a run over one successful commit returns an empty
list — not one `ProcessingResult` entry per input commit as the claim
states for every mode. -/
theorem sequential_entry_count_counterexample :
    (process_commits_sequential false (fun _ => okCommitEnv) ["a"]).errors.length
      ≠ ["a"].length := by
  decide

/-- C3 (amended): only the parallel path returns exactly one
`(commit, error)` entry per input commit (given that worktree acquisition
and the pool do not raise; `as_completed` yields each future once, i.e.
the completion order is a permutation of each batch).  The sequential
path returns one entry per FAILING commit only (though it attempts every
commit).  The local-checkout path returns a single optional error and
STOPS at the first failing commit: when the shared checkout was prepared
and the commit list splits as `pre ++ c :: post` with every commit of
`pre` succeeding through its benchmark stage and `c` failing with some
error, the whole run returns exactly that error and attempts only
`pre.length + 1` commits — the commits of `post` are never attempted;
conversely a run that returns no error attempted every commit. -/
theorem pipeline_result_counts (cfg : BatchCfg) (commits : List Sha)
    (bs : Nat) (le : LocalEnv) (lenv : Sha → LocalCommitEnv) (force : Bool)
    (env : Sha → CommitEnv)
    (hacq : ∀ j, cfg.acqFail j = none) (hpool : ∀ k, cfg.poolFail k = none)
    (hperm : ∀ l, List.Perm (cfg.reorder l) l) :
    (process_commits_in_parallel cfg commits bs).results.length =
      commits.length ∧
    (process_commits_in_parallel cfg commits bs).raised = none ∧
    (process_commits_sequential force env commits).errors.length =
      commits.countP (fun c => (process_commit c force (env c)).error.isSome) ∧
    (process_commits_sequential force env commits).attempted =
      commits.length ∧
    (le.cleanOk = true → le.configure = .ok →
      ((process_commits_local_checkout le force lenv commits).error = none →
        (process_commits_local_checkout le force lenv commits).attempted =
          commits.length) ∧
      (∀ (pre : List Sha) (c : Sha) (post : List Sha) (err : String),
        commits = pre ++ c :: post →
        (∀ x ∈ pre, localReachesUpload force (lenv x)) →
        (localLoop force lenv [c]).error = some err →
        (process_commits_local_checkout le force lenv commits).error =
          some err ∧
        (process_commits_local_checkout le force lenv commits).attempted =
          pre.length + 1)) := by
  have hrun := runBatches_no_failure cfg hacq hpool hperm
    (chunks bs commits.enum) 0
  refine ⟨?_, hrun.2.1, seq_errors_length force env commits,
    seq_attempted force env commits, ?_⟩
  · rw [process_commits_in_parallel, hrun.1, chunks_flatten, List.enum_length]
  · intro hclean hconf
    have hunfold : process_commits_local_checkout le force lenv commits =
        localLoop force lenv commits := by
      rw [process_commits_local_checkout]
      simp [hclean, hconf]
    constructor
    · intro herr
      rw [hunfold] at herr ⊢
      exact localLoop_error_none_attempted force lenv commits herr
    · intro pre c post err hsplit hpre hfail
      subst hsplit
      have happ := localLoop_append_reaches force lenv pre (c :: post) hpre
      have hcons := localLoop_cons_fail force lenv c post err hfail
      rw [hunfold]
      constructor
      · rw [happ.1, hcons.1]
      · rw [happ.2.1, hcons.2]

/-- Witness for C3 (amended) at concrete configurations: a three-commit
parallel run returns three entries, and a two-commit local-checkout run
whose first commit fails at make attempts only that one commit. -/
theorem pipeline_result_counts_witness :
    (process_commits_in_parallel (okBatchCfg 2) ["a", "b", "c"] 2).results.length
      = 3 ∧
    (process_commits_local_checkout { cleanOk := true, configure := .ok }
        false (fun _ => failLocalEnv) ["a", "b"]).error =
      some "Error processing commit a: make exited 2" ∧
    (process_commits_local_checkout { cleanOk := true, configure := .ok }
        false (fun _ => failLocalEnv) ["a", "b"]).attempted = 1 := by
  have h := pipeline_result_counts (okBatchCfg 2) ["a", "b", "c"] 2
    { cleanOk := true, configure := .ok } (fun _ => okLocalEnv) false
    (fun _ => okCommitEnv) (fun _ => rfl) (fun _ => rfl)
    (fun l => List.Perm.refl l)
  have h2 := pipeline_result_counts (okBatchCfg 2) ["a", "b"] 2
    { cleanOk := true, configure := .ok } (fun _ => failLocalEnv) false
    (fun _ => okCommitEnv) (fun _ => rfl) (fun _ => rfl)
    (fun l => List.Perm.refl l)
  have hstop := (h2.2.2.2.2 rfl rfl).2 [] "a" ["b"]
    "Error processing commit a: make exited 2" rfl (by simp) (by rfl)
  exact ⟨h.1, hstop.1, hstop.2⟩

/-- C6 counterexample: a parallel run of one fully successful commit
performs one `validate_binary_and_environment` call INSIDE the per-commit
state machine (`process_commit` lines 375-383 run in both the parallel
and the sequential path), refuting the claim that the parallel path does
not re-validate per commit. -/
theorem parallel_path_revalidates :
    ¬ ((process_commits_in_parallel (okBatchCfg 2) ["a"] 1).validateCalls = 0)
    := by
  decide

/-- C6 (amended): binary/environment registration is validated exactly
once per run by `benchmark_command` before any commit is processed (a
pre-flight failure processes zero commits, creates zero isolations and
makes zero per-commit validation calls), AND it is additionally
re-validated per commit inside the per-commit state machine in EVERY
mode: the parallel and sequential paths both call
`validate_binary_and_environment` once per commit that reaches the
validation stage, and the local-checkout path does too. -/
theorem validation_per_run_and_per_commit (ce : CliEnv) (cfg : BatchCfg)
    (le : LocalEnv) (lenv : Sha → LocalCommitEnv) (commits : List Sha)
    (bs : Nat)
    (hgates : ce.prereqOk = true ∧ ce.repoOk = true ∧
      ce.commitRangeOk = true ∧ ce.outputDirOk = true ∧
      ce.buildEnvOk = true)
    (hacq : ∀ j, cfg.acqFail j = none) (hpool : ∀ k, cfg.poolFail k = none)
    (hperm : ∀ l, List.Perm (cfg.reorder l) l)
    (hv : ∀ c ∈ commits,
      (process_commit c cfg.force (cfg.env c)).validateCalled = true)
    (hl : ∀ c ∈ commits, localReachesUpload cfg.force (lenv c)) :
    (benchmark_command ce cfg le lenv commits).preflightValidateCalls = 1 ∧
    (ce.preflightValidateOk = false →
      benchmark_command ce cfg le lenv commits = cliEarlyExit 1) ∧
    (process_commits_in_parallel cfg commits bs).validateCalls =
      commits.length ∧
    (process_commits_sequential cfg.force cfg.env commits).validateCalls =
      commits.length ∧
    (localLoop cfg.force lenv commits).validateCalls = commits.length := by
  obtain ⟨hg1, hg2, hg3, hg4, hg5⟩ := hgates
  have hsum : (commits.map (fun c =>
      (process_commit c cfg.force (cfg.env c)).validateCalled.toNat)).sum =
      commits.length :=
    sum_map_eq_length _ commits (fun c hc => by rw [hv c hc]; rfl)
  refine ⟨?_, ?_, ?_, ?_, ?_⟩
  · rw [benchmark_command]
    simp only [hg1, hg2, hg3, hg4, hg5, and_self, not_true_eq_false,
      if_false]
    repeat' split
    all_goals rfl
  · intro hpf
    rw [benchmark_command]
    simp [hg1, hg2, hg3, hg4, hg5, hpf]
  · have hrun := runBatches_no_failure cfg hacq hpool hperm
      (chunks bs commits.enum) 0
    rw [process_commits_in_parallel, hrun.2.2, chunks_flatten]
    have hcomp : commits.enum.map (fun p =>
        (process_commit p.2 cfg.force (cfg.env p.2)).validateCalled.toNat) =
        commits.map (fun c =>
        (process_commit c cfg.force (cfg.env c)).validateCalled.toNat) := by
      show commits.enum.map ((fun c =>
        (process_commit c cfg.force (cfg.env c)).validateCalled.toNat)
          ∘ Prod.snd) = _
      rw [← List.map_map, List.enum_map_snd]
    rw [hcomp, hsum]
  · rw [seq_validateCalls, hsum]
  · exact (localLoop_of_reaches cfg.force lenv commits hl).2.2

/-- Witness for C6 (amended) at a concrete configuration. -/
theorem validation_per_run_and_per_commit_witness :
    (process_commits_in_parallel (okBatchCfg 2) ["a", "b"] 1).validateCalls
      = 2 := by
  have h := validation_per_run_and_per_commit okCliEnv (okBatchCfg 2)
    { cleanOk := true, configure := .ok } (fun _ => okLocalEnv) ["a", "b"] 1
    ⟨rfl, rfl, rfl, rfl, rfl⟩ (fun _ => rfl) (fun _ => rfl)
    (fun l => List.Perm.refl l) (fun c _ => rfl)
    (fun c _ => ⟨rfl, by simp [okLocalEnv], rfl, rfl, rfl, rfl, rfl⟩)
  exact h.2.2.1

/-- C4 counterexample: with `max_workers = 2` and `batch_size = 4`, all
four worktrees of the batch are created up front before the pool starts,
so four isolations are live at once, exceeding
`min(max_workers, batch_size) = 2`. -/
theorem concurrency_exceeds_min_counterexample :
    min 2 4 <
      maxLive []
        (process_commits_in_parallel (okBatchCfg 2) ["a", "b", "c", "d"] 4).trace
    := by
  decide

/-- C4 (amended): the batch scheduler acquires the isolation of every
commit in the batch up front, so the number of simultaneously live
`BuildIsolation` instances is bounded by the BATCH SIZE (it can exceed
`min(max_workers, batch_size)` whenever `batch_size > max_workers`),
assuming teardowns succeed; each commit acquires exactly one isolation
over the whole run (the `addWorktree` indices are pairwise distinct);
and `max_workers` only bounds the thread pool, whose size per batch is
`min(max_workers, len(batch)) ≤ min(max_workers, batch_size)`. -/
theorem concurrency_bound_amended (cfg : BatchCfg) (commits : List Sha)
    (bs : Nat) (hbs : 1 ≤ bs) (hrm : ∀ j, cfg.rmFail j = false) :
    maxLive [] (process_commits_in_parallel cfg commits bs).trace ≤ bs ∧
    (addsOf (process_commits_in_parallel cfg commits bs).trace).Nodup ∧
    (∀ s ∈ (process_commits_in_parallel cfg commits bs).poolSizes,
      s ≤ min cfg.maxWorkers bs) := by
  refine ⟨?_, ?_, ?_⟩
  · exact runBatches_maxLive_le cfg bs hrm (chunks bs commits.enum) 0
      (chunks_enum_batch_facts commits bs hbs)
  · exact runBatches_addsOf_nodup cfg (chunks bs commits.enum) 0
      (chunks_enum_flatten_nodup commits bs)
  · exact runBatches_poolSizes cfg bs (chunks bs commits.enum) 0
      (fun b hb => (chunks_enum_batch_facts commits bs hbs b hb).2)

/-- Witness for C4 (amended) at a concrete configuration. -/
theorem concurrency_bound_amended_witness :
    maxLive [] (process_commits_in_parallel (okBatchCfg 2) ["a", "b", "c"] 2).trace
      ≤ 2 :=
  (concurrency_bound_amended (okBatchCfg 2) ["a", "b", "c"] 2 (by decide)
    (fun _ => rfl)).1

/-- C1 counterexample: after a fully successful one-commit parallel run,
the linked working tree has been removed but the mkdtemp temporary root
it was created under is still on disk — the `finally` block only runs
`git worktree remove`, and nothing in the source removes the temporary
root, contradicting the claim that teardown removes both. -/
theorem teardown_leaves_temp_root :
    rootsAfter [] (process_commits_in_parallel (okBatchCfg 2) ["a"] 1).trace
      = [0] ∧
    liveAfter [] (process_commits_in_parallel (okBatchCfg 2) ["a"] 1).trace
      = [] := by
  decide

/-- C1 (amended): for every batch, teardown of every acquired worktree
is attempted in the `finally` block after the batch results are
collected, even when acquisition or the pool raised; teardown never
raises and a teardown failure never changes the returned results, the
escaping exception or the set of attempted removals (so it cannot
replace the processing error of a commit); when the removals succeed,
every linked working tree is removed — but the mkdtemp temporary root of
each worktree is NOT removed: no trace event ever deletes a temporary
root.  The trace decomposes into sequential per-batch segments, each of
which performs all its acquisitions before its teardown attempts. -/
theorem parallel_teardown_amended (cfg : BatchCfg) (commits : List Sha)
    (bs : Nat) :
    (∀ j, FsEvent.addWorktree j ∈
        (process_commits_in_parallel cfg commits bs).trace →
      ∃ ok, FsEvent.removeWorktree j ok ∈
        (process_commits_in_parallel cfg commits bs).trace) ∧
    (∀ rf1 rf2 : Nat → Bool,
      (process_commits_in_parallel { cfg with rmFail := rf1 } commits bs).results
        = (process_commits_in_parallel { cfg with rmFail := rf2 } commits bs).results ∧
      (process_commits_in_parallel { cfg with rmFail := rf1 } commits bs).raised
        = (process_commits_in_parallel { cfg with rmFail := rf2 } commits bs).raised ∧
      (process_commits_in_parallel { cfg with rmFail := rf1 } commits bs).attempted
        = (process_commits_in_parallel { cfg with rmFail := rf2 } commits bs).attempted) ∧
    ((∀ j, cfg.rmFail j = false) →
      liveAfter [] (process_commits_in_parallel cfg commits bs).trace = []) ∧
    (∀ roots, roots ⊆
      rootsAfter roots (process_commits_in_parallel cfg commits bs).trace) ∧
    (∃ bl2, (∃ tail, bl2 ++ tail = chunks bs commits.enum) ∧
      (process_commits_in_parallel cfg commits bs).trace =
        (bl2.map (batchSeg cfg)).flatten) := by
  refine ⟨?_, ?_, ?_, ?_, ?_⟩
  · exact runBatches_teardown_attempted cfg (chunks bs commits.enum) 0
  · intro rf1 rf2
    have h := runBatches_rmFail_irrelevant cfg rf1 rf2
      (chunks bs commits.enum) 0
    exact ⟨h.1, h.2.1, h.2.2.1⟩
  · intro hrm
    exact runBatches_liveAfter_empty cfg hrm (chunks bs commits.enum) 0
      (chunks_enum_batch_nodup commits bs)
  · exact fun roots => rootsAfter_superset _ roots
  · exact runBatches_trace_shape cfg (chunks bs commits.enum) 0

/-- Witness for C1 (amended) at a concrete configuration. -/
theorem parallel_teardown_amended_witness :
    liveAfter [] (process_commits_in_parallel (okBatchCfg 2) ["a", "b"] 1).trace
      = [] :=
  (parallel_teardown_amended (okBatchCfg 2) ["a", "b"] 1).2.2.1 (fun _ => rfl)

end MemTracker
